import Mathlib

/-!
Verification development for the `fx` animation-tweening module of
@marwajs/dom (src/fx.ts).

The module is embedded shallowly as an operational model:
* pure channel read/write semantics (`readStyle`, `writeStyle`) are direct
  translations of `readStyle` / `write` in src/fx.ts;
* the stateful engine (registry `FX`, `cancel`, `tweenElement`, the `step`
  frame loop and the public helpers) is modelled as explicit state passing
  over an `Engine` record, with the browser host (clock, animation-frame
  scheduler, computed-style reads) represented explicitly;
* machine numbers are modelled by `ℚ` (JS numbers, no overflow concerns in
  this module), strings by `String`.

The aliasing of the mutable `FXState` object between the registry and the
`step` closure is modelled by a heap of `FXState` records keyed by ids;
the registry maps element ids to state ids, each animation closure keeps
the id of the state it captured.
-/

set_option maxHeartbeats 1000000

namespace Fx

/-- Host-side computed style value for one property: an empty string, a
string whose `parseFloat` is the rational `q`, or an unparseable string
(`parseFloat` gives NaN). -/
inductive StyleVal where
  | empty
  | numv (q : ℚ)
  | bad
deriving DecidableEq

/-- Composed CSS transform written by `write` in src/fx.ts: the string
`translate(tx, ty) scale(sc) rotate(rot deg)`, kept structurally with its
fixed component order translate, scale, rotate. -/
structure Transform where
  tx : ℚ
  ty : ℚ
  sc : ℚ
  rot : ℚ
deriving DecidableEq

/-- Inline style of one element, restricted to the fields the fx module
reads or writes. `props` holds numeric CSS custom properties and numeric
styles (a value written as a number or with a `px` suffix parses back to
the same rational). -/
structure ElStyle where
  opacity : Option ℚ
  transform : Option Transform
  props : List (String × ℚ)
  display : String
  willChange : String
deriving DecidableEq

/-- Default inline style: nothing set. -/
def defStyle : ElStyle := ⟨none, none, [], "", ""⟩

/-- `FXState` of src/fx.ts: raf handle, start timestamp, stop flag and the
`from` / `to` channel maps (`from` is a Lean keyword, hence `fromV`). -/
structure FXState where
  raf : Option Nat
  start : ℚ
  stop : Bool
  fromV : List (String × ℚ)
  toV : List (String × ℚ)
deriving DecidableEq

/-- Association-list lookup (models JS object / Map key access). -/
def alookup {κ α : Type} [DecidableEq κ] : List (κ × α) → κ → Option α
  | [], _ => none
  | (k', v) :: t, k => if k' = k then some v else alookup t k

/-- Association-list removal (models `Map.delete`). -/
def aerase {κ α : Type} [DecidableEq κ] : List (κ × α) → κ → List (κ × α)
  | [], _ => []
  | (k', v) :: t, k => if k' = k then aerase t k else (k', v) :: aerase t k

/-- Association-list update (models `Map.set` / property assignment). -/
def aset {κ α : Type} [DecidableEq κ] (l : List (κ × α)) (k : κ) (v : α) :
    List (κ × α) :=
  (k, v) :: aerase l k

/-- `readStyle(el, k)` of src/fx.ts, over the host computed-style map `cs`
of the element. `parseFloat(cs.opacity || "1") || 0` maps the empty string
to 1 and NaN to 0; for a generic property, `getPropertyValue(…) || "0"`
followed by `parseFloat` and an `isNaN` guard maps empty and unparseable
values to 0. (The camelCase→kebab-case key normalisation of the source is
absorbed into the host map's keying.) -/
def readStyle (cs : String → StyleVal) (k : String) : ℚ :=
  if k = "opacity" then
    match cs "opacity" with
    | .empty => 1
    | .numv q => q
    | .bad => 0
  else if k = "x" then 0
  else if k = "y" then 0
  else if k = "scale" then 1
  else if k = "rotate" then 0
  else
    match cs k with
    | .empty => 0
    | .numv q => q
    | .bad => 0

/-- Transform-composer fallback of `write` in src/fx.ts: with
`f = st?.to || {}`, a component not currently being written is
`f.c ?? st?.from?.c ?? default`. -/
def compFall (st : Option FXState) (key : String) (d : ℚ) : ℚ :=
  match st with
  | none => d
  | some s =>
    match alookup s.toV key with
    | some q => q
    | none => (alookup s.fromV key).getD d

/-- `write(el, k, v)` of src/fx.ts as a pure effect on the element's inline
style, given the registry entry `st = FX.get(el)` used by the transform
composer. -/
def writeStyle (st : Option FXState) (es : ElStyle) (k : String) (v : ℚ) :
    ElStyle :=
  if k = "opacity" then { es with opacity := some v }
  else if k = "x" ∨ k = "y" ∨ k = "scale" ∨ k = "rotate" then
    { es with transform := some ⟨if k = "x" then v else compFall st "x" 0,
        if k = "y" then v else compFall st "y" 0,
        if k = "scale" then v else compFall st "scale" 1,
        if k = "rotate" then v else compFall st "rotate" 0⟩ }
  else { es with props := aset es.props k v }

/-- `ease.linear` of src/fx.ts. -/
def easeLinear (t : ℚ) : ℚ := t

/-- `ease.in` of src/fx.ts. -/
def easeIn (t : ℚ) : ℚ := t * t

/-- `ease.out` of src/fx.ts. -/
def easeOut (t : ℚ) : ℚ := 1 - (1 - t) * (1 - t)

/-- `ease.inout` of src/fx.ts. -/
def easeInOut (t : ℚ) : ℚ :=
  if t < 1/2 then 2 * t * t else 1 - (-2 * t + 2) ^ 2 / 2

/-- Normalised progress of the frame loop in `tweenElement`:
`Math.min(1, (now() - start) / Math.max(1, ms))`. -/
def progT (elapsed d : ℚ) : ℚ := min 1 (elapsed / max 1 d)

/-- Closure data of one `step` frame loop created by `tweenElement`:
target element, id of the shared `FXState` it captured, duration, easing,
optional completion callback and captured start time. -/
structure Anim where
  el : Nat
  sid : Nat
  ms : ℚ
  easing : ℚ → ℚ
  onDone : Option (ElStyle → ElStyle)
  start : ℚ

/-- One observed channel write: which animation wrote, on which element,
which channel and which value (observational trace, used to state the
temporal claims). -/
structure WEvent where
  aid : Nat
  el : Nat
  chan : String
  val : ℚ
deriving DecidableEq

/-- Whole-engine state: the heap of shared `FXState` objects, the `FX`
registry (element id ↦ state id), each element's inline style, the pending
animation-frame callbacks of the host scheduler (handle ↦ animation id),
the animation closures, a fresh-id counter, the monotonic clock, the
host's stylesheet-level computed styles, and the observation traces of
writes and fired completion callbacks. -/
structure Engine where
  heap : List (Nat × FXState)
  fx : List (Nat × Nat)
  styles : List (Nat × ElStyle)
  pending : List (Nat × Nat)
  anims : List (Nat × Anim)
  nextId : Nat
  time : ℚ
  base : Nat → String → StyleVal
  writes : List WEvent
  doneFired : List Nat

/-- Inline style currently on element `el`. -/
def styleOf (g : Engine) (el : Nat) : ElStyle :=
  (alookup g.styles el).getD defStyle

/-- `getComputedStyle(el)` as seen by fx: inline writes shadow the
stylesheet-level `base` values. -/
def computedAt (g : Engine) (el : Nat) : String → StyleVal := fun k =>
  let es := styleOf g el
  if k = "opacity" then
    match es.opacity with
    | some q => .numv q
    | none => g.base el "opacity"
  else
    match alookup es.props k with
    | some q => .numv q
    | none => g.base el k

/-- One `write(el, k, v)` call inside the frame loop: looks up `FX.get(el)`
for the transform composer, updates the inline style and records the write
in the observation trace (tagged with the id of the writing animation). -/
def writeOne (g : Engine) (aid el : Nat) (k : String) (v : ℚ) : Engine :=
  let stO := (alookup g.fx el).bind (fun sid => alookup g.heap sid)
  { g with styles := aset g.styles el (writeStyle stO (styleOf g el) k v),
           writes := g.writes ++ [⟨aid, el, k, v⟩] }

/-- Interpolated value of one channel on a frame:
`from[k] + (dst[k] - from[k]) * e` (in `step`, `from` and `dst` always hold
the same keys, so the 0 default of the lookup is never exercised). -/
def interpV (fromV : List (String × ℚ)) (kv : String × ℚ) (e : ℚ) : ℚ :=
  (alookup fromV kv.1).getD 0 + (kv.2 - (alookup fromV kv.1).getD 0) * e

/-- The per-frame write loop of `step`: for each key of `dst` (in key
order) interpolate `from[k] + (dst[k] - from[k]) * e` and write it. -/
def writeLoop (g : Engine) (aid el : Nat) (fromV toV : List (String × ℚ))
    (e : ℚ) : Engine :=
  toV.foldl (fun acc kv => writeOne acc aid el kv.1 (interpV fromV kv e)) g

/-- `cancel(el)` of src/fx.ts: if a state exists, set its stop flag, cancel
its pending frame callback, and delete the registry entry; no-op
otherwise. -/
def cancel (g : Engine) (el : Nat) : Engine :=
  match alookup g.fx el with
  | none => g
  | some sid =>
    match alookup g.heap sid with
    | none => { g with fx := aerase g.fx el }
    | some st =>
      { g with heap := aset g.heap sid { st with stop := true },
               pending := match st.raf with
                          | some h => aerase g.pending h
                          | none => g.pending,
               fx := aerase g.fx el }

/-- `tweenElement(el, to, ms, easing, onDone)` of src/fx.ts: cancel any
in-flight animation, capture `from` by `readStyle`, install the fresh
state in the registry and schedule the first frame. Fresh ids `nextId`
(state), `nextId + 1` (animation closure) and `nextId + 2` (raf handle)
are allocated. -/
def tweenElement (g : Engine) (el : Nat) (toV : List (String × ℚ)) (ms : ℚ)
    (ez : ℚ → ℚ) (od : Option (ElStyle → ElStyle)) : Engine :=
  let g1 := cancel g el
  let fromV := toV.map (fun kv => (kv.1, readStyle (computedAt g1 el) kv.1))
  let sid := g1.nextId
  let aid := g1.nextId + 1
  let h := g1.nextId + 2
  { g1 with
    heap := (sid, ⟨some h, g1.time, false, fromV, toV⟩) :: g1.heap,
    fx := aset g1.fx el sid,
    anims := (aid, ⟨el, sid, ms, ez, od, g1.time⟩) :: g1.anims,
    pending := (h, aid) :: g1.pending,
    nextId := g1.nextId + 3 }

/-- One invocation of the `step` closure of animation `aid`: return at once
if the shared state's stop flag is set; otherwise compute `t` and the eased
progress, write every channel, and either schedule the next frame (t < 1)
or delete the registry entry and fire the completion callback (t ≥ 1). -/
def stepRun (g : Engine) (aid : Nat) : Engine :=
  match alookup g.anims aid with
  | none => g
  | some a =>
    match alookup g.heap a.sid with
    | none => g
    | some st =>
      if st.stop then g
      else
        let t := progT (g.time - a.start) a.ms
        let g1 := writeLoop g aid a.el st.fromV st.toV (a.easing t)
        if t < 1 then
          { g1 with
            heap := aset g1.heap a.sid { st with raf := some g1.nextId },
            pending := (g1.nextId, aid) :: g1.pending,
            nextId := g1.nextId + 1 }
        else
          let g2 := { g1 with fx := aerase g1.fx a.el }
          match a.onDone with
          | none => g2
          | some f =>
            { g2 with
              styles := aset g2.styles a.el (f (styleOf g2 a.el)),
              doneFired := g2.doneFired ++ [aid] }

/-- The host scheduler fires the pending frame callback with handle `h`
(removing it from the pending set); a cancelled or unknown handle never
fires. -/
def fireRaf (g : Engine) (h : Nat) : Engine :=
  match alookup g.pending h with
  | none => g
  | some aid => stepRun { g with pending := aerase g.pending h } aid

/-- `fxTo` of src/fx.ts on a resolved first element (`none` = empty
selection). -/
def fxTo (g : Engine) (d : Option Nat) (toV : List (String × ℚ)) (ms : ℚ)
    (ez : ℚ → ℚ) : Engine :=
  match d with
  | none => g
  | some el => tweenElement g el toV ms ez none

/-- Toggle decision of `fxFade` when `show` is unspecified:
`parseFloat(getComputedStyle(el).opacity || "1") < 0.5` (NaN compares
false). -/
def fadeToggle (sv : StyleVal) : Bool :=
  match sv with
  | .empty => if (1 : ℚ) < 1/2 then true else false
  | .numv q => if q < 1/2 then true else false
  | .bad => false

/-- Completion callback installed by `fxFade`: reset `willChange`; if the
fade went towards hidden, remove the element from layout. -/
def fadeDone (target : Bool) : ElStyle → ElStyle := fun es =>
  { es with willChange := "", display := if target then es.display else "none" }

/-- `fxFade` of src/fx.ts: decide the direction, set `willChange`, un-hide
a layout-hidden element before a fade-in, and start the opacity tween with
the `fadeDone` completion callback. -/
def fxFade (g : Engine) (d : Option Nat) (ms : ℚ) (sh : Option Bool)
    (ez : ℚ → ℚ) : Engine :=
  match d with
  | none => g
  | some el =>
    let target := match sh with
      | some b => b
      | none => fadeToggle (computedAt g el "opacity")
    let g1 := { g with
      styles := aset g.styles el { styleOf g el with willChange := "opacity" } }
    let g2 := if target && ((styleOf g1 el).display == "none") then
        { g1 with
          styles := aset g1.styles el { styleOf g1 el with display := "" } }
      else g1
    tweenElement g2 el [("opacity", if target then 1 else 0)] ms ez
      (some (fadeDone target))

/-- `fxMove` of src/fx.ts. -/
def fxMove (g : Engine) (d : Option Nat) (x y ms : ℚ) (ez : ℚ → ℚ) : Engine :=
  match d with
  | none => g
  | some el => tweenElement g el [("x", x), ("y", y)] ms ez none

/-- `fxScale` of src/fx.ts. -/
def fxScale (g : Engine) (d : Option Nat) (s ms : ℚ) (ez : ℚ → ℚ) : Engine :=
  match d with
  | none => g
  | some el => tweenElement g el [("scale", s)] ms ez none

/-- `fxRotate` of src/fx.ts. -/
def fxRotate (g : Engine) (d : Option Nat) (deg ms : ℚ) (ez : ℚ → ℚ) : Engine :=
  match d with
  | none => g
  | some el => tweenElement g el [("rotate", deg)] ms ez none

/-- `fxStop` of src/fx.ts: cancel the first resolved element's animation,
no-op on an empty selection. -/
def fxStop (g : Engine) (d : Option Nat) : Engine :=
  match d with
  | none => g
  | some el => cancel g el

/-- Events of the host/caller environment: clock advance, the scheduler
firing a pending frame callback, and the public fx operations. -/
inductive Act where
  | tick (dt : ℚ)
  | fire (h : Nat)
  | actTo (el : Option Nat) (toV : List (String × ℚ)) (ms : ℚ) (ez : ℚ → ℚ)
  | actFade (el : Option Nat) (ms : ℚ) (sh : Option Bool) (ez : ℚ → ℚ)
  | actMove (el : Option Nat) (x y ms : ℚ) (ez : ℚ → ℚ)
  | actScale (el : Option Nat) (s ms : ℚ) (ez : ℚ → ℚ)
  | actRotate (el : Option Nat) (deg ms : ℚ) (ez : ℚ → ℚ)
  | actStop (el : Option Nat)

/-- Apply one environment event. -/
def applyAct (g : Engine) : Act → Engine
  | .tick dt => { g with time := g.time + dt }
  | .fire h => fireRaf g h
  | .actTo el toV ms ez => fxTo g el toV ms ez
  | .actFade el ms sh ez => fxFade g el ms sh ez
  | .actMove el x y ms ez => fxMove g el x y ms ez
  | .actScale el s ms ez => fxScale g el s ms ez
  | .actRotate el deg ms ez => fxRotate g el deg ms ez
  | .actStop el => fxStop g el

/-- Run a list of environment events. -/
def runActs (g : Engine) (acts : List Act) : Engine :=
  acts.foldl applyAct g

/-- Fresh engine over a host stylesheet `b` and initial inline styles. -/
def mkEngine (b : Nat → String → StyleVal) (sts : List (Nat × ElStyle)) :
    Engine :=
  ⟨[], [], sts, [], [], 0, 0, b, [], []⟩

/-- Sub-trace of the write events produced by one animation id. -/
def eventsBy : List WEvent → Nat → List WEvent
  | [], _ => []
  | w :: t, aid => if w.aid = aid then w :: eventsBy t aid else eventsBy t aid

/-- Writes of animation `aid` in the observation trace. -/
def writesOf (g : Engine) (aid : Nat) : List WEvent :=
  eventsBy g.writes aid

/-- Occurrences of `aid` in a list of fired animation ids. -/
def natsBy : List Nat → Nat → List Nat
  | [], _ => []
  | x :: t, aid => if x = aid then x :: natsBy t aid else natsBy t aid

/-- Completion-callback firings of animation `aid` in the trace. -/
def firedOf (g : Engine) (aid : Nat) : List Nat :=
  natsBy g.doneFired aid

/-- Raf-handle bound for one state object: any recorded handle is below the
fresh-id counter. -/
def rafOkB (st : FXState) (n : Nat) : Bool :=
  match st.raf with
  | some h => decide (h < n)
  | none => true

/-- Freshness invariant of the engine: every allocated heap id, animation
id and recorded raf handle is below the fresh-id counter. -/
def WFb (g : Engine) : Bool :=
  (g.heap.all fun p => decide (p.1 < g.nextId) && rafOkB p.2 g.nextId) &&
  (g.anims.all fun p => decide (p.1 < g.nextId))

/-- Propositional form of the freshness invariant. -/
def WF (g : Engine) : Prop := WFb g = true

/-! Basic association-list lemmas. -/

theorem alookup_aerase_self {κ α : Type} [DecidableEq κ]
    (l : List (κ × α)) (k : κ) : alookup (aerase l k) k = none := by
  induction l with
  | nil => rfl
  | cons p t ih =>
    by_cases h : p.1 = k
    · simpa [aerase, h] using ih
    · simpa [aerase, alookup, h] using ih

theorem alookup_aerase_ne {κ α : Type} [DecidableEq κ]
    (l : List (κ × α)) (k k' : κ) (h : k ≠ k') :
    alookup (aerase l k') k = alookup l k := by
  induction l with
  | nil => rfl
  | cons p t ih =>
    obtain ⟨pk, pv⟩ := p
    by_cases hp : pk = k'
    · have hpk : ¬ pk = k := fun hh => h (by rw [← hh, hp])
      simp [aerase, alookup, hp, hpk, Ne.symm h, ih]
    · by_cases hk : pk = k
      · simp [aerase, alookup, hp, hk, h]
      · simp [aerase, alookup, hp, hk, ih]

theorem alookup_aset_self {κ α : Type} [DecidableEq κ]
    (l : List (κ × α)) (k : κ) (v : α) : alookup (aset l k v) k = some v := by
  simp [aset, alookup]

theorem alookup_aset_ne {κ α : Type} [DecidableEq κ]
    (l : List (κ × α)) (k k' : κ) (v : α) (h : k ≠ k') :
    alookup (aset l k' v) k = alookup l k := by
  have : ¬ k' = k := fun hh => h hh.symm
  simp [aset, alookup, this, alookup_aerase_ne l k k' h]

theorem alookup_mem {κ α : Type} [DecidableEq κ]
    {l : List (κ × α)} {k : κ} {v : α} (h : alookup l k = some v) :
    (k, v) ∈ l := by
  induction l with
  | nil => simp [alookup] at h
  | cons p t ih =>
    obtain ⟨pk, pv⟩ := p
    by_cases hp : pk = k
    · simp only [alookup, if_pos hp, Option.some.injEq] at h
      subst hp; subst h
      exact List.mem_cons_self _ _
    · simp only [alookup, if_neg hp] at h
      exact List.mem_cons_of_mem _ (ih h)

theorem aerase_subset {κ α : Type} [DecidableEq κ]
    (l : List (κ × α)) (k : κ) {p : κ × α} (h : p ∈ aerase l k) : p ∈ l := by
  induction l with
  | nil => simp [aerase] at h
  | cons q t ih =>
    obtain ⟨qk, qv⟩ := q
    by_cases hq : qk = k
    · simp only [aerase, if_pos hq] at h
      exact List.mem_cons_of_mem _ (ih h)
    · simp only [aerase, if_neg hq, List.mem_cons] at h
      rcases h with h | h
      · exact h ▸ List.mem_cons_self _ _
      · exact List.mem_cons_of_mem _ (ih h)

/-! Projection lemmas for the write loop: writes only touch the style map
and the observation trace. -/

theorem writeOne_fx (g : Engine) (aid el : Nat) (k : String) (v : ℚ) :
    (writeOne g aid el k v).fx = g.fx := rfl

theorem writeOne_heap (g : Engine) (aid el : Nat) (k : String) (v : ℚ) :
    (writeOne g aid el k v).heap = g.heap := rfl

theorem writeOne_frozen (g : Engine) (aid el : Nat) (k : String) (v : ℚ) :
    (writeOne g aid el k v).fx = g.fx ∧
    (writeOne g aid el k v).heap = g.heap ∧
    (writeOne g aid el k v).pending = g.pending ∧
    (writeOne g aid el k v).anims = g.anims ∧
    (writeOne g aid el k v).nextId = g.nextId ∧
    (writeOne g aid el k v).time = g.time ∧
    (writeOne g aid el k v).doneFired = g.doneFired := by
  refine ⟨rfl, rfl, rfl, rfl, rfl, rfl, rfl⟩

theorem writeLoop_frozen (toV : List (String × ℚ)) (g : Engine)
    (aid el : Nat) (fromV : List (String × ℚ)) (e : ℚ) :
    (writeLoop g aid el fromV toV e).fx = g.fx ∧
    (writeLoop g aid el fromV toV e).heap = g.heap ∧
    (writeLoop g aid el fromV toV e).pending = g.pending ∧
    (writeLoop g aid el fromV toV e).anims = g.anims ∧
    (writeLoop g aid el fromV toV e).nextId = g.nextId ∧
    (writeLoop g aid el fromV toV e).time = g.time ∧
    (writeLoop g aid el fromV toV e).doneFired = g.doneFired := by
  induction toV generalizing g with
  | nil => exact ⟨rfl, rfl, rfl, rfl, rfl, rfl, rfl⟩
  | cons kv t ih =>
    simpa [writeLoop, List.foldl]
      using ih (writeOne g aid el kv.1 (interpV fromV kv e))

theorem writeLoop_writes (toV : List (String × ℚ)) (g : Engine)
    (aid el : Nat) (fromV : List (String × ℚ)) (e : ℚ) :
    (writeLoop g aid el fromV toV e).writes =
      g.writes ++ toV.map (fun kv => ⟨aid, el, kv.1, interpV fromV kv e⟩) := by
  induction toV generalizing g with
  | nil => simp [writeLoop]
  | cons kv t ih =>
    simp [writeLoop, List.foldl] at ih ⊢
    rw [ih (writeOne g aid el kv.1 (interpV fromV kv e))]
    simp [writeOne]

/-! Characterisations of one `step` invocation. -/

theorem stepRun_stopped (g : Engine) (aid : Nat) (a : Anim) (st : FXState)
    (ha : alookup g.anims aid = some a) (hst : alookup g.heap a.sid = some st)
    (hs : st.stop = true) : stepRun g aid = g := by
  simp [stepRun, ha, hst, hs]

theorem stepRun_cont (g : Engine) (aid : Nat) (a : Anim) (st : FXState)
    (ha : alookup g.anims aid = some a) (hst : alookup g.heap a.sid = some st)
    (hs : st.stop = false)
    (hlt : progT (g.time - a.start) a.ms < 1) :
    (stepRun g aid).heap = aset g.heap a.sid { st with raf := some g.nextId } ∧
    (stepRun g aid).pending = (g.nextId, aid) :: g.pending ∧
    (stepRun g aid).nextId = g.nextId + 1 ∧
    (stepRun g aid).anims = g.anims ∧
    (stepRun g aid).fx = g.fx ∧
    (stepRun g aid).doneFired = g.doneFired ∧
    (stepRun g aid).writes = g.writes ++ st.toV.map (fun kv =>
      ⟨aid, a.el, kv.1,
        interpV st.fromV kv (a.easing (progT (g.time - a.start) a.ms))⟩) ∧
    (stepRun g aid).styles = (writeLoop g aid a.el st.fromV st.toV
      (a.easing (progT (g.time - a.start) a.ms))).styles ∧
    (stepRun g aid).time = g.time := by
  have hf := writeLoop_frozen st.toV g aid a.el st.fromV
    (a.easing (progT (g.time - a.start) a.ms))
  have hw := writeLoop_writes st.toV g aid a.el st.fromV
    (a.easing (progT (g.time - a.start) a.ms))
  have hns : ¬ st.stop = true := by rw [hs]; exact Bool.false_ne_true
  simp only [stepRun, ha, hst, if_neg hns, if_pos hlt]
  simp [hf.1, hf.2.1, hf.2.2.1, hf.2.2.2.1, hf.2.2.2.2.1, hf.2.2.2.2.2.1,
        hf.2.2.2.2.2.2, hw]

theorem stepRun_done_none (g : Engine) (aid : Nat) (a : Anim) (st : FXState)
    (ha : alookup g.anims aid = some a) (hst : alookup g.heap a.sid = some st)
    (hs : st.stop = false)
    (hge : ¬ progT (g.time - a.start) a.ms < 1) (hod : a.onDone = none) :
    (stepRun g aid).heap = g.heap ∧
    (stepRun g aid).pending = g.pending ∧
    (stepRun g aid).nextId = g.nextId ∧
    (stepRun g aid).anims = g.anims ∧
    (stepRun g aid).fx = aerase g.fx a.el ∧
    (stepRun g aid).doneFired = g.doneFired ∧
    (stepRun g aid).writes = g.writes ++ st.toV.map (fun kv =>
      ⟨aid, a.el, kv.1,
        interpV st.fromV kv (a.easing (progT (g.time - a.start) a.ms))⟩) ∧
    (stepRun g aid).styles = (writeLoop g aid a.el st.fromV st.toV
      (a.easing (progT (g.time - a.start) a.ms))).styles ∧
    (stepRun g aid).time = g.time := by
  have hf := writeLoop_frozen st.toV g aid a.el st.fromV
    (a.easing (progT (g.time - a.start) a.ms))
  have hw := writeLoop_writes st.toV g aid a.el st.fromV
    (a.easing (progT (g.time - a.start) a.ms))
  have hns : ¬ st.stop = true := by rw [hs]; exact Bool.false_ne_true
  simp only [stepRun, ha, hst, if_neg hns, if_neg hge, hod]
  simp [hf.1, hf.2.1, hf.2.2.1, hf.2.2.2.1, hf.2.2.2.2.1, hf.2.2.2.2.2.1,
        hf.2.2.2.2.2.2, hw]

theorem stepRun_done_some (g : Engine) (aid : Nat) (a : Anim) (st : FXState)
    (f : ElStyle → ElStyle)
    (ha : alookup g.anims aid = some a) (hst : alookup g.heap a.sid = some st)
    (hs : st.stop = false)
    (hge : ¬ progT (g.time - a.start) a.ms < 1) (hod : a.onDone = some f) :
    (stepRun g aid).heap = g.heap ∧
    (stepRun g aid).pending = g.pending ∧
    (stepRun g aid).nextId = g.nextId ∧
    (stepRun g aid).anims = g.anims ∧
    (stepRun g aid).fx = aerase g.fx a.el ∧
    (stepRun g aid).doneFired = g.doneFired ++ [aid] ∧
    (stepRun g aid).writes = g.writes ++ st.toV.map (fun kv =>
      ⟨aid, a.el, kv.1,
        interpV st.fromV kv (a.easing (progT (g.time - a.start) a.ms))⟩) ∧
    (stepRun g aid).styles =
      (let s1 := (writeLoop g aid a.el st.fromV st.toV
        (a.easing (progT (g.time - a.start) a.ms))).styles
       aset s1 a.el (f ((alookup s1 a.el).getD defStyle))) ∧
    (stepRun g aid).time = g.time := by
  have hf := writeLoop_frozen st.toV g aid a.el st.fromV
    (a.easing (progT (g.time - a.start) a.ms))
  have hw := writeLoop_writes st.toV g aid a.el st.fromV
    (a.easing (progT (g.time - a.start) a.ms))
  have hns : ¬ st.stop = true := by rw [hs]; exact Bool.false_ne_true
  simp only [stepRun, ha, hst, if_neg hns, if_neg hge, hod]
  simp [hf.1, hf.2.1, hf.2.2.1, hf.2.2.2.1, hf.2.2.2.2.1, hf.2.2.2.2.2.1,
        hf.2.2.2.2.2.2, hw, styleOf]

/-! Characterisations of `cancel` and `tweenElement`. -/

theorem cancel_absent (g : Engine) (el : Nat)
    (h : alookup g.fx el = none) : cancel g el = g := by
  simp [cancel, h]

theorem cancel_present (g : Engine) (el sid : Nat) (st : FXState)
    (hfx : alookup g.fx el = some sid) (hst : alookup g.heap sid = some st) :
    (cancel g el).heap = aset g.heap sid { st with stop := true } ∧
    (cancel g el).fx = aerase g.fx el ∧
    (cancel g el).pending = (match st.raf with
      | some h => aerase g.pending h
      | none => g.pending) ∧
    (cancel g el).styles = g.styles ∧
    (cancel g el).anims = g.anims ∧
    (cancel g el).nextId = g.nextId ∧
    (cancel g el).time = g.time ∧
    (cancel g el).writes = g.writes ∧
    (cancel g el).doneFired = g.doneFired := by
  simp [cancel, hfx, hst]

theorem cancel_frozen (g : Engine) (el : Nat) :
    (cancel g el).styles = g.styles ∧
    (cancel g el).anims = g.anims ∧
    (cancel g el).nextId = g.nextId ∧
    (cancel g el).time = g.time ∧
    (cancel g el).writes = g.writes ∧
    (cancel g el).doneFired = g.doneFired := by
  cases hfx : alookup g.fx el with
  | none => simp [cancel, hfx]
  | some sid =>
    cases hst : alookup g.heap sid with
    | none => simp [cancel, hfx, hst]
    | some st => simp [cancel, hfx, hst]

theorem tween_proj (g : Engine) (el : Nat) (toV : List (String × ℚ)) (ms : ℚ)
    (ez : ℚ → ℚ) (od : Option (ElStyle → ElStyle)) :
    (tweenElement g el toV ms ez od).heap =
      ((cancel g el).nextId,
        ⟨some ((cancel g el).nextId + 2), (cancel g el).time, false,
          toV.map (fun kv =>
            (kv.1, readStyle (computedAt (cancel g el) el) kv.1)), toV⟩) ::
        (cancel g el).heap ∧
    (tweenElement g el toV ms ez od).fx =
      aset (cancel g el).fx el (cancel g el).nextId ∧
    (tweenElement g el toV ms ez od).anims =
      ((cancel g el).nextId + 1,
        ⟨el, (cancel g el).nextId, ms, ez, od, (cancel g el).time⟩) ::
        (cancel g el).anims ∧
    (tweenElement g el toV ms ez od).pending =
      ((cancel g el).nextId + 2, (cancel g el).nextId + 1) ::
        (cancel g el).pending ∧
    (tweenElement g el toV ms ez od).nextId = (cancel g el).nextId + 3 ∧
    (tweenElement g el toV ms ez od).styles = (cancel g el).styles ∧
    (tweenElement g el toV ms ez od).time = (cancel g el).time ∧
    (tweenElement g el toV ms ez od).writes = (cancel g el).writes ∧
    (tweenElement g el toV ms ez od).doneFired = (cancel g el).doneFired := by
  refine ⟨rfl, rfl, rfl, rfl, rfl, rfl, rfl, rfl, rfl⟩

/-! The freshness invariant `WF` and its preservation. -/

theorem rafOkB_mono {st : FXState} {n m : Nat} (h : rafOkB st n = true)
    (hnm : n ≤ m) : rafOkB st m = true := by
  unfold rafOkB at h ⊢
  cases hr : st.raf with
  | none => rfl
  | some hh =>
    rw [hr] at h
    simp only [decide_eq_true_eq] at h ⊢
    omega

theorem WF_def (g : Engine) : WF g ↔
    (∀ p ∈ g.heap, p.1 < g.nextId ∧ rafOkB p.2 g.nextId = true) ∧
    (∀ p ∈ g.anims, p.1 < g.nextId) := by
  simp [WF, WFb, List.all_eq_true, decide_eq_true_eq, Bool.and_eq_true]

theorem WF.heapLt {g : Engine} {sid : Nat} {st : FXState} (hwf : WF g)
    (h : alookup g.heap sid = some st) : sid < g.nextId :=
  (((WF_def g).mp hwf).1 _ (alookup_mem h)).1

theorem WF.rafLt {g : Engine} {sid : Nat} {st : FXState} {hh : Nat}
    (hwf : WF g) (h : alookup g.heap sid = some st) (hr : st.raf = some hh) :
    hh < g.nextId := by
  have h2 := (((WF_def g).mp hwf).1 _ (alookup_mem h)).2
  unfold rafOkB at h2
  rw [hr] at h2
  simpa using h2

theorem WF.animLt {g : Engine} {aid : Nat} {a : Anim} (hwf : WF g)
    (h : alookup g.anims aid = some a) : aid < g.nextId :=
  ((WF_def g).mp hwf).2 _ (alookup_mem h)

theorem aset_mem {κ α : Type} [DecidableEq κ] {l : List (κ × α)} {k : κ}
    {v : α} {p : κ × α} (h : p ∈ aset l k v) : p = (k, v) ∨ p ∈ l := by
  rcases List.mem_cons.mp h with h | h
  · exact Or.inl h
  · exact Or.inr (aerase_subset l k h)

theorem WF_congr {g g2 : Engine} (hh : g2.heap = g.heap)
    (ha : g2.anims = g.anims) (hn : g2.nextId = g.nextId) (hwf : WF g) :
    WF g2 := by
  rw [WF_def] at hwf ⊢
  rw [hh, ha, hn]
  exact hwf

theorem cancel_orphan (g : Engine) (el sid : Nat)
    (hfx : alookup g.fx el = some sid) (hst : alookup g.heap sid = none) :
    cancel g el = { g with fx := aerase g.fx el } := by
  simp [cancel, hfx, hst]

theorem WF_cancel {g : Engine} (hwf : WF g) (el : Nat) : WF (cancel g el) := by
  cases hfx : alookup g.fx el with
  | none => rw [cancel_absent g el hfx]; exact hwf
  | some sid =>
    cases hst : alookup g.heap sid with
    | none =>
      rw [cancel_orphan g el sid hfx hst]
      exact WF_congr rfl rfl rfl hwf
    | some st =>
      obtain ⟨h1, _, _, _, h5, h6, _, _, _⟩ := cancel_present g el sid st hfx hst
      rw [WF_def]
      obtain ⟨hwh, hwa⟩ := (WF_def g).mp hwf
      constructor
      · intro p hp
        rw [h1] at hp
        rw [h6]
        rcases aset_mem hp with h | h
        · subst h
          refine ⟨hwf.heapLt hst, ?_⟩
          have h2 := (hwh _ (alookup_mem hst)).2
          unfold rafOkB at h2 ⊢
          simpa using h2
        · exact hwh _ h
      · intro p hp
        rw [h5] at hp
        rw [h6]
        exact hwa _ hp

theorem WF_tween {g : Engine} (hwf : WF g) (el : Nat)
    (toV : List (String × ℚ)) (ms : ℚ) (ez : ℚ → ℚ)
    (od : Option (ElStyle → ElStyle)) : WF (tweenElement g el toV ms ez od) := by
  have hc := WF_cancel hwf el
  rw [WF_def] at hc
  obtain ⟨hh, ha⟩ := hc
  obtain ⟨h1, _, h3, _, h5, _, _, _, _⟩ := tween_proj g el toV ms ez od
  rw [WF_def]
  constructor
  · intro p hp
    rw [h1] at hp
    rw [h5]
    rcases List.mem_cons.mp hp with h | h
    · subst h
      refine ⟨by omega, ?_⟩
      unfold rafOkB
      simp
    · exact ⟨by have := (hh _ h).1; omega,
        rafOkB_mono (hh _ h).2 (by omega)⟩
  · intro p hp
    rw [h3] at hp
    rw [h5]
    rcases List.mem_cons.mp hp with h | h
    · subst h; simp
    · have := ha _ h; omega

theorem WF_writeLoop {g : Engine} (hwf : WF g) (aid el : Nat)
    (fromV toV : List (String × ℚ)) (e : ℚ) :
    WF (writeLoop g aid el fromV toV e) := by
  obtain ⟨_, hh, _, han, hn, _, _⟩ := writeLoop_frozen toV g aid el fromV e
  exact WF_congr hh han hn hwf

theorem Bool.false_of_not_true {b : Bool} (h : ¬ b = true) : b = false := by
  cases b
  · rfl
  · exact absurd rfl h

theorem WF_stepRun {g : Engine} (hwf : WF g) (aid : Nat) :
    WF (stepRun g aid) := by
  cases ha : alookup g.anims aid with
  | none =>
    have he : stepRun g aid = g := by simp [stepRun, ha]
    rw [he]; exact hwf
  | some a =>
    cases hst : alookup g.heap a.sid with
    | none =>
      have he : stepRun g aid = g := by simp [stepRun, ha, hst]
      rw [he]; exact hwf
    | some st =>
      by_cases hs : st.stop = true
      · rw [stepRun_stopped g aid a st ha hst hs]; exact hwf
      · have hsf : st.stop = false := Bool.false_of_not_true hs
        by_cases hlt : progT (g.time - a.start) a.ms < 1
        · obtain ⟨hH, _, hN, hA, _, _, _, _, _⟩ :=
            stepRun_cont g aid a st ha hst hsf hlt
          rw [WF_def]
          obtain ⟨hwh, hwa⟩ := (WF_def g).mp hwf
          constructor
          · intro p hp
            rw [hH] at hp
            rw [hN]
            rcases aset_mem hp with h | h
            · subst h
              refine ⟨by have := hwf.heapLt hst; omega, ?_⟩
              unfold rafOkB
              simp
            · exact ⟨by have := (hwh _ h).1; omega,
                rafOkB_mono (hwh _ h).2 (by omega)⟩
          · intro p hp
            rw [hA] at hp
            rw [hN]
            have := hwa _ hp
            omega
        · cases hod : a.onDone with
          | none =>
            obtain ⟨hH, _, hN, hA, _, _, _, _, _⟩ :=
              stepRun_done_none g aid a st ha hst hsf hlt hod
            exact WF_congr hH hA hN hwf
          | some f =>
            obtain ⟨hH, _, hN, hA, _, _, _, _, _⟩ :=
              stepRun_done_some g aid a st f ha hst hsf hlt hod
            exact WF_congr hH hA hN hwf

/-! A cancelled (superseded) animation: its closure's shared state carries
a set stop flag, so it can never write again and can never fire its
completion callback, whatever the environment does next. -/

/-- Animation `aid` is inert: its closure's shared `FXState` has the stop
flag set. -/
def Inert (g : Engine) (aid : Nat) : Prop :=
  ∃ a st, alookup g.anims aid = some a ∧ alookup g.heap a.sid = some st ∧
    st.stop = true

theorem eventsBy_append (l1 l2 : List WEvent) (aid : Nat) :
    eventsBy (l1 ++ l2) aid = eventsBy l1 aid ++ eventsBy l2 aid := by
  induction l1 with
  | nil => simp [eventsBy]
  | cons w t ih =>
    by_cases h : w.aid = aid
    · simp [eventsBy, h, ih]
    · simp [eventsBy, h, ih]

theorem eventsBy_other (toV : List (String × ℚ)) (f : String × ℚ → WEvent)
    (aid : Nat) (hne : ∀ kv, (f kv).aid ≠ aid) :
    eventsBy (toV.map f) aid = [] := by
  induction toV with
  | nil => rfl
  | cons kv t ih => simp [eventsBy, hne kv, ih]

theorem natsBy_append (l1 l2 : List Nat) (aid : Nat) :
    natsBy (l1 ++ l2) aid = natsBy l1 aid ++ natsBy l2 aid := by
  induction l1 with
  | nil => simp [natsBy]
  | cons x t ih =>
    by_cases h : x = aid
    · simp [natsBy, h, ih]
    · simp [natsBy, h, ih]

/-- Protection invariant: the engine is well-formed, `aid` is inert, and
`aid` has produced no write and no completion-callback firing beyond what
it had in the reference state `g0`. -/
def Prot (g0 g : Engine) (aid : Nat) : Prop :=
  WF g ∧ Inert g aid ∧ writesOf g aid = writesOf g0 aid ∧
    firedOf g aid = firedOf g0 aid

theorem prot_styles {g0 g : Engine} {aid : Nat} (h : Prot g0 g aid)
    (s : List (Nat × ElStyle)) : Prot g0 { g with styles := s } aid :=
  ⟨WF_congr rfl rfl rfl h.1, h.2.1, h.2.2.1, h.2.2.2⟩

theorem prot_ite {g0 : Engine} {aid : Nat} {c : Prop} [Decidable c]
    {gA gB : Engine} (hA : Prot g0 gA aid) (hB : Prot g0 gB aid) :
    Prot g0 (if c then gA else gB) aid := by
  by_cases h : c
  · rw [if_pos h]; exact hA
  · rw [if_neg h]; exact hB

theorem prot_cancel {g0 g : Engine} {aid : Nat} (h : Prot g0 g aid)
    (el : Nat) : Prot g0 (cancel g el) aid := by
  obtain ⟨hwf, hin, hwr, hfi⟩ := h
  refine ⟨WF_cancel hwf el, ?_, ?_, ?_⟩
  · obtain ⟨a, st, ha, hst, hs⟩ := hin
    cases hfx : alookup g.fx el with
    | none => rw [cancel_absent g el hfx]; exact ⟨a, st, ha, hst, hs⟩
    | some sid =>
      cases hsid : alookup g.heap sid with
      | none =>
        rw [cancel_orphan g el sid hfx hsid]
        exact ⟨a, st, ha, hst, hs⟩
      | some st2 =>
        obtain ⟨h1, _, _, _, h5, _, _, _, _⟩ :=
          cancel_present g el sid st2 hfx hsid
        by_cases hss : sid = a.sid
        · subst hss
          rw [hsid] at hst
          injection hst with hst2
          exact ⟨a, { st2 with stop := true }, by rw [h5]; exact ha,
            by rw [h1]; exact alookup_aset_self _ _ _, rfl⟩
        · exact ⟨a, st, by rw [h5]; exact ha,
            by
              rw [h1,
                alookup_aset_ne _ _ _ _ (fun hh => hss hh.symm)]
              exact hst,
            hs⟩
  · rw [writesOf, (cancel_frozen g el).2.2.2.2.1]; exact hwr
  · rw [firedOf, (cancel_frozen g el).2.2.2.2.2]; exact hfi

theorem prot_tween_of_cancel {g0 g : Engine} {aid el : Nat}
    (hwfg : WF g) (hc : Prot g0 (cancel g el) aid)
    (toV : List (String × ℚ)) (ms : ℚ) (ez : ℚ → ℚ)
    (od : Option (ElStyle → ElStyle)) :
    Prot g0 (tweenElement g el toV ms ez od) aid := by
  obtain ⟨hwf, hin, hwr, hfi⟩ := hc
  obtain ⟨h1, _, h3, _, h5, _, _, h8, h9⟩ := tween_proj g el toV ms ez od
  refine ⟨WF_tween hwfg el toV ms ez od, ?_, ?_, ?_⟩
  · obtain ⟨a, st, ha, hst, hs⟩ := hin
    have haid : aid < (cancel g el).nextId := hwf.animLt ha
    have hsid : a.sid < (cancel g el).nextId := hwf.heapLt hst
    refine ⟨a, st, ?_, ?_, hs⟩
    · rw [h3]
      simp only [alookup]
      rw [if_neg (by omega)]
      exact ha
    · rw [h1]
      simp only [alookup]
      rw [if_neg (by omega)]
      exact hst
  · rw [writesOf, h8]; exact hwr
  · rw [firedOf, h9]; exact hfi

theorem prot_tween {g0 g : Engine} {aid : Nat} (h : Prot g0 g aid)
    (el : Nat) (toV : List (String × ℚ)) (ms : ℚ) (ez : ℚ → ℚ)
    (od : Option (ElStyle → ElStyle)) :
    Prot g0 (tweenElement g el toV ms ez od) aid :=
  prot_tween_of_cancel h.1 (prot_cancel h el) toV ms ez od

theorem prot_stepRun {g0 g : Engine} {aid : Nat} (h : Prot g0 g aid)
    (aid' : Nat) : Prot g0 (stepRun g aid') aid := by
  obtain ⟨hwf, hin, hwr, hfi⟩ := h
  cases ha : alookup g.anims aid' with
  | none =>
    have he : stepRun g aid' = g := by simp [stepRun, ha]
    rw [he]; exact ⟨hwf, hin, hwr, hfi⟩
  | some a =>
    cases hst : alookup g.heap a.sid with
    | none =>
      have he : stepRun g aid' = g := by simp [stepRun, ha, hst]
      rw [he]; exact ⟨hwf, hin, hwr, hfi⟩
    | some st =>
      by_cases hs : st.stop = true
      · rw [stepRun_stopped g aid' a st ha hst hs]
        exact ⟨hwf, hin, hwr, hfi⟩
      · have hsf : st.stop = false := Bool.false_of_not_true hs
        obtain ⟨ai, sti, hai, hsti, hsi⟩ := hin
        have hne : aid' ≠ aid := by
          intro hh
          subst hh
          rw [ha] at hai
          injection hai with hA
          rw [← hA] at hsti
          rw [hst] at hsti
          injection hsti with hS
          rw [← hS] at hsi
          rw [hsi] at hsf
          exact Bool.noConfusion hsf
        have hsidne : ai.sid ≠ a.sid := by
          intro hh
          rw [hh, hst] at hsti
          injection hsti with hS
          rw [← hS] at hsi
          rw [hsi] at hsf
          exact Bool.noConfusion hsf
        have hmape : ∀ kv : String × ℚ,
            (WEvent.mk aid' a.el kv.1
              (interpV st.fromV kv
                (a.easing (progT (g.time - a.start) a.ms)))).aid ≠ aid :=
          fun kv => hne
        by_cases hlt : progT (g.time - a.start) a.ms < 1
        · obtain ⟨hH, _, _, hA, _, hD, hW, _, _⟩ :=
            stepRun_cont g aid' a st ha hst hsf hlt
          refine ⟨WF_stepRun hwf aid', ⟨ai, sti, ?_, ?_, hsi⟩, ?_, ?_⟩
          · rw [hA]; exact hai
          · rw [hH, alookup_aset_ne _ _ _ _ hsidne]; exact hsti
          · rw [writesOf, hW, eventsBy_append, eventsBy_other _ _ _ hmape]
            simpa using hwr
          · rw [firedOf, hD]; exact hfi
        · cases hod : a.onDone with
          | none =>
            obtain ⟨hH, _, _, hA, _, hD, hW, _, _⟩ :=
              stepRun_done_none g aid' a st ha hst hsf hlt hod
            refine ⟨WF_stepRun hwf aid', ⟨ai, sti, ?_, ?_, hsi⟩, ?_, ?_⟩
            · rw [hA]; exact hai
            · rw [hH]; exact hsti
            · rw [writesOf, hW, eventsBy_append, eventsBy_other _ _ _ hmape]
              simpa using hwr
            · rw [firedOf, hD]; exact hfi
          | some f =>
            obtain ⟨hH, _, _, hA, _, hD, hW, _, _⟩ :=
              stepRun_done_some g aid' a st f ha hst hsf hlt hod
            refine ⟨WF_stepRun hwf aid', ⟨ai, sti, ?_, ?_, hsi⟩, ?_, ?_⟩
            · rw [hA]; exact hai
            · rw [hH]; exact hsti
            · rw [writesOf, hW, eventsBy_append, eventsBy_other _ _ _ hmape]
              simpa using hwr
            · rw [firedOf, hD, natsBy_append]
              simp [natsBy, hne]
              exact hfi

theorem prot_applyAct {g0 g : Engine} {aid : Nat} (h : Prot g0 g aid)
    (act : Act) : Prot g0 (applyAct g act) aid := by
  cases act with
  | tick dt =>
    exact ⟨WF_congr rfl rfl rfl h.1, h.2.1, h.2.2.1, h.2.2.2⟩
  | fire hh =>
    simp only [applyAct, fireRaf]
    cases hp : alookup g.pending hh with
    | none => exact h
    | some aid' =>
      refine prot_stepRun ?_ aid'
      exact ⟨WF_congr rfl rfl rfl h.1, h.2.1, h.2.2.1, h.2.2.2⟩
  | actTo el toV ms ez =>
    cases el with
    | none => exact h
    | some e => exact prot_tween h e toV ms ez none
  | actFade el ms sh ez =>
    cases el with
    | none => exact h
    | some e =>
      simp only [applyAct, fxFade]
      exact prot_tween (prot_ite (prot_styles (prot_styles h _) _)
        (prot_styles h _)) e _ ms ez _
  | actMove el x y ms ez =>
    cases el with
    | none => exact h
    | some e => exact prot_tween h e _ ms ez none
  | actScale el s ms ez =>
    cases el with
    | none => exact h
    | some e => exact prot_tween h e _ ms ez none
  | actRotate el deg ms ez =>
    cases el with
    | none => exact h
    | some e => exact prot_tween h e _ ms ez none
  | actStop el =>
    cases el with
    | none => exact h
    | some e => exact prot_cancel h e

theorem prot_runActs {g0 g : Engine} {aid : Nat} (h : Prot g0 g aid)
    (acts : List Act) : Prot g0 (runActs g acts) aid := by
  induction acts generalizing g with
  | nil => exact h
  | cons act t ih => exact ih (prot_applyAct h act)

/-! Concrete host data for the closed witness and counterexample
scenarios. -/

/-- Host stylesheet with no values set anywhere. -/
def baseW : Nat → String → StyleVal := fun _ _ => .empty

/-- Host stylesheet giving element styles for the witness scenarios:
opacity 1/2 and width 7 on every element. -/
def baseV : Nat → String → StyleVal := fun _ k =>
  if k = "opacity" then .numv (1/2) else if k = "width" then .numv 7
  else .empty

/-! ### C6 — normalised progress -/

/-- C6: on every frame the normalised progress is
`t = min(1, elapsed / max(1, d))`; for a positive duration `d` it is
monotone in the elapsed time, never exceeds 1, equals 1 as soon as
`max 1 d` has elapsed, can only equal 1 once `d` has elapsed, and a
zero-duration request is floored to a 1 time-unit duration (no division by
zero). -/
theorem progT_progress_spec (d e e1 e2 : ℚ) (hd : 0 < d) (h12 : e1 ≤ e2) :
    progT e d = min 1 (e / max 1 d) ∧
    progT e1 d ≤ progT e2 d ∧
    progT e d ≤ 1 ∧
    (max 1 d ≤ e → progT e d = 1) ∧
    (progT e d = 1 → d ≤ e) ∧
    progT e 0 = min 1 (e / 1) := by
  have hm : (0 : ℚ) < max 1 d := lt_of_lt_of_le one_pos (le_max_left _ _)
  refine ⟨rfl, ?_, min_le_left _ _, ?_, ?_, ?_⟩
  · exact min_le_min le_rfl ((div_le_div_right hm).mpr h12)
  · intro hge
    have h1 : (1 : ℚ) ≤ e / max 1 d := by
      rw [le_div_iff₀ hm]
      simpa using hge
    exact min_eq_left h1
  · intro h1
    have h2 : (1 : ℚ) ≤ e / max 1 d := by
      by_contra hlt
      push_neg at hlt
      have := min_eq_right hlt.le
      rw [progT] at h1
      rw [this] at h1
      exact absurd h1 (ne_of_lt hlt)
    have h3 : max 1 d ≤ e := by
      rw [le_div_iff₀ hm] at h2
      simpa using h2
    exact le_trans (le_max_right 1 d) h3
  · norm_num [progT]

/-- Closed witness for `progT_progress_spec` at `d = 2`, `e = 3`,
`e1 = 1`, `e2 = 2`. -/
theorem progT_progress_spec_witness :
    (0 : ℚ) < 2 ∧ (1 : ℚ) ≤ 2 ∧
    (progT 3 2 = min 1 (3 / max 1 2) ∧
     progT 1 2 ≤ progT 2 2 ∧
     progT 3 2 ≤ 1 ∧
     (max 1 2 ≤ (3 : ℚ) → progT 3 2 = 1) ∧
     (progT 3 2 = 1 → (2 : ℚ) ≤ 3) ∧
     progT 3 0 = min 1 (3 / 1)) :=
  ⟨by norm_num, by norm_num,
    progT_progress_spec 2 3 1 2 (by norm_num) (by norm_num)⟩

/-! ### C8 — the channel read rule -/

/-- C8: `readStyle` returns 0 for `x`, `y` and `rotate`, 1 for `scale`,
the parsed computed opacity for `opacity` (0 when unparseable), and for
any other channel the parsed numeric computed value with 0 substituted for
an empty or unparseable value — never an error. -/
theorem readStyle_read_rule (cs : String → StyleVal) (k : String) (q r : ℚ)
    (hk : k ≠ "opacity" ∧ k ≠ "x" ∧ k ≠ "y" ∧ k ≠ "scale" ∧ k ≠ "rotate") :
    readStyle cs "x" = 0 ∧ readStyle cs "y" = 0 ∧
    readStyle cs "rotate" = 0 ∧ readStyle cs "scale" = 1 ∧
    (cs "opacity" = .numv q → readStyle cs "opacity" = q) ∧
    (cs "opacity" = .bad → readStyle cs "opacity" = 0) ∧
    (cs k = .numv r → readStyle cs k = r) ∧
    (cs k = .bad → readStyle cs k = 0) ∧
    (cs k = .empty → readStyle cs k = 0) := by
  obtain ⟨h1, h2, h3, h4, h5⟩ := hk
  refine ⟨by simp [readStyle], by simp [readStyle], by simp [readStyle],
    by simp [readStyle], ?_, ?_, ?_, ?_, ?_⟩
  · intro h; simp [readStyle, h]
  · intro h; simp [readStyle, h]
  · intro h; simp [readStyle, h1, h2, h3, h4, h5, h]
  · intro h; simp [readStyle, h1, h2, h3, h4, h5, h]
  · intro h; simp [readStyle, h1, h2, h3, h4, h5, h]

/-- Closed witness for `readStyle_read_rule` on the concrete stylesheet
`baseV` and the channel `width`. -/
theorem readStyle_read_rule_witness :
    (("width" : String) ≠ "opacity" ∧ ("width" : String) ≠ "x" ∧
     ("width" : String) ≠ "y" ∧ ("width" : String) ≠ "scale" ∧
     ("width" : String) ≠ "rotate") ∧
    readStyle (baseV 0) "opacity" = 1/2 ∧
    readStyle (baseV 0) "width" = 7 ∧
    readStyle (baseV 0) "x" = 0 ∧ readStyle (baseV 0) "scale" = 1 :=
  ⟨by decide,
   (readStyle_read_rule (baseV 0) "width" (1/2) 7 (by decide)).2.2.2.2.1 rfl,
   (readStyle_read_rule (baseV 0) "width" (1/2) 7 (by decide)).2.2.2.2.2.2.1
     rfl,
   (readStyle_read_rule (baseV 0) "width" (1/2) 7 (by decide)).1,
   (readStyle_read_rule (baseV 0) "width" (1/2) 7 (by decide)).2.2.2.1⟩

/-! ### C9 — cancel / stop are silent no-ops and idempotent -/

/-- C9: `cancel` on a target with no registry entry returns the engine
unchanged (no error is modelled: the operation is total), cancellation is
idempotent, and `stop` on an empty selection or absent target is a no-op. -/
theorem cancel_noop_idempotent (g : Engine) (el : Nat) :
    (alookup g.fx el = none → cancel g el = g) ∧
    cancel (cancel g el) el = cancel g el ∧
    fxStop g none = g ∧
    fxStop (fxStop g (some el)) (some el) = fxStop g (some el) := by
  have hidem : cancel (cancel g el) el = cancel g el := by
    cases hfx : alookup g.fx el with
    | none =>
      rw [cancel_absent g el hfx, cancel_absent g el hfx]
    | some sid =>
      have hfx2 : alookup (cancel g el).fx el = none := by
        cases hsid : alookup g.heap sid with
        | none =>
          rw [cancel_orphan g el sid hfx hsid]
          exact alookup_aerase_self _ _
        | some st =>
          rw [(cancel_present g el sid st hfx hsid).2.1]
          exact alookup_aerase_self _ _
      exact cancel_absent _ el hfx2
  exact ⟨fun h => cancel_absent g el h, hidem, rfl, hidem⟩

/-- Closed witness for `cancel_noop_idempotent` on a fresh engine. -/
theorem cancel_noop_idempotent_witness :
    alookup (mkEngine baseW []).fx 0 = none ∧
    cancel (mkEngine baseW []) 0 = mkEngine baseW [] ∧
    fxStop (mkEngine baseW []) none = mkEngine baseW [] :=
  ⟨rfl, (cancel_noop_idempotent (mkEngine baseW []) 0).1 rfl,
   (cancel_noop_idempotent (mkEngine baseW []) 0).2.2.1⟩

/-! ### C7 — registry entries are removed on completion and cancellation -/

/-- Auxiliary: once `max 1 d` time has elapsed the progress equals 1. -/
theorem progT_eq_one {e d : ℚ} (h : max 1 d ≤ e) : progT e d = 1 := by
  have hm : (0 : ℚ) < max 1 d := lt_of_lt_of_le one_pos (le_max_left _ _)
  refine min_eq_left ?_
  rw [le_div_iff₀ hm]
  simpa using h

/-- C7: the registry entry of a target is removed both by `cancel`
(explicit stop or supersession) and by the frame loop when the animation
completes naturally (`t ≥ 1`): no stale state remains for a target that is
no longer animating. -/
theorem registry_entry_removed (g : Engine) (el aid : Nat) (a : Anim)
    (st : FXState)
    (ha : alookup g.anims aid = some a) (hst : alookup g.heap a.sid = some st)
    (hs : st.stop = false) (hge : max 1 a.ms ≤ g.time - a.start) :
    alookup (cancel g el).fx el = none ∧
    alookup (stepRun g aid).fx a.el = none := by
  constructor
  · cases hfx : alookup g.fx el with
    | none => rw [cancel_absent g el hfx]; exact hfx
    | some sid =>
      cases hsid : alookup g.heap sid with
      | none =>
        rw [cancel_orphan g el sid hfx hsid]
        exact alookup_aerase_self _ _
      | some st2 =>
        rw [(cancel_present g el sid st2 hfx hsid).2.1]
        exact alookup_aerase_self _ _
  · have hnlt : ¬ progT (g.time - a.start) a.ms < 1 := by
      rw [progT_eq_one hge]
      exact lt_irrefl 1
    cases hod : a.onDone with
    | none =>
      rw [(stepRun_done_none g aid a st ha hst hs hnlt hod).2.2.2.2.1]
      exact alookup_aerase_self _ _
    | some f =>
      rw [(stepRun_done_some g aid a st f ha hst hs hnlt hod).2.2.2.2.1]
      exact alookup_aerase_self _ _

/-- Engine after `dom("#el0").move(10, 0, 300)` on a fresh page. -/
def gMv : Engine := fxMove (mkEngine baseW []) (some 0) 10 0 300 easeLinear

/-- The animation closure installed by the `move` of `gMv`. -/
def aMv : Anim := ⟨0, 0, 300, easeLinear, none, 0⟩

/-- The shared animation state installed by the `move` of `gMv`. -/
def sMv : FXState :=
  ⟨some 2, 0, false, [("x", 0), ("y", 0)], [("x", 10), ("y", 0)]⟩

/-- `gMv` after the clock advanced past the animation duration. -/
def gMvT : Engine := applyAct gMv (.tick 300)

/-- Closed witness for `registry_entry_removed`: the completed `move` of
`gMvT` and a cancel both leave no registry entry. -/
theorem registry_entry_removed_witness :
    alookup gMvT.anims 1 = some aMv ∧
    alookup gMvT.heap aMv.sid = some sMv ∧ sMv.stop = false ∧
    max 1 aMv.ms ≤ gMvT.time - aMv.start ∧
    (alookup (cancel gMvT 0).fx 0 = none ∧
     alookup (stepRun gMvT 1).fx aMv.el = none) := by
  have hge : max 1 aMv.ms ≤ gMvT.time - aMv.start := by
    show max 1 (300 : ℚ) ≤ gMvT.time - 0
    have ht : gMvT.time = 0 + 300 := rfl
    rw [ht]
    norm_num [max_def]
  exact ⟨rfl, rfl, rfl, hge,
    registry_entry_removed gMvT 0 1 aMv sMv rfl rfl rfl hge⟩

/-! ### C4 — exclusivity: terminate-before-install -/

theorem aerase_keys_sub {κ α : Type} [DecidableEq κ]
    (l : List (κ × α)) (k : κ) {x : κ}
    (hx : x ∈ (aerase l k).map Prod.fst) : x ∈ l.map Prod.fst := by
  obtain ⟨p, hp, hpx⟩ := List.mem_map.mp hx
  exact List.mem_map.mpr ⟨p, aerase_subset l k hp, hpx⟩

theorem aerase_keys_nodup {κ α : Type} [DecidableEq κ]
    (l : List (κ × α)) (k : κ) (h : (l.map Prod.fst).Nodup) :
    ((aerase l k).map Prod.fst).Nodup := by
  induction l with
  | nil => simp [aerase]
  | cons p t ih =>
    obtain ⟨pk, pv⟩ := p
    simp only [List.map_cons, List.nodup_cons] at h
    by_cases hp : pk = k
    · simpa [aerase, hp] using ih h.2
    · simp only [aerase, if_neg hp, List.map_cons, List.nodup_cons]
      exact ⟨fun hmem => h.1 (aerase_keys_sub t k hmem), ih h.2⟩

theorem aerase_keys_not_mem {κ α : Type} [DecidableEq κ]
    (l : List (κ × α)) (k : κ) : k ∉ (aerase l k).map Prod.fst := by
  induction l with
  | nil => simp [aerase]
  | cons p t ih =>
    obtain ⟨pk, pv⟩ := p
    by_cases hp : pk = k
    · simpa [aerase, hp] using ih
    · simp only [aerase, if_neg hp, List.map_cons, List.mem_cons]
      rintro (h | h)
      · exact hp h.symm
      · exact ih h

theorem aset_keys_nodup {κ α : Type} [DecidableEq κ]
    (l : List (κ × α)) (k : κ) (v : α) (h : (l.map Prod.fst).Nodup) :
    ((aset l k v).map Prod.fst).Nodup := by
  simp only [aset, List.map_cons, List.nodup_cons]
  exact ⟨aerase_keys_not_mem l k, aerase_keys_nodup l k h⟩

theorem fx_nodup_cancel (g : Engine) (el : Nat)
    (h : (g.fx.map Prod.fst).Nodup) :
    ((cancel g el).fx.map Prod.fst).Nodup := by
  cases hfx : alookup g.fx el with
  | none => rw [cancel_absent g el hfx]; exact h
  | some sid =>
    cases hsid : alookup g.heap sid with
    | none =>
      rw [cancel_orphan g el sid hfx hsid]
      exact aerase_keys_nodup _ _ h
    | some st =>
      rw [(cancel_present g el sid st hfx hsid).2.1]
      exact aerase_keys_nodup _ _ h

theorem fx_nodup_tween (g : Engine) (el : Nat) (toV : List (String × ℚ))
    (ms : ℚ) (ez : ℚ → ℚ) (od : Option (ElStyle → ElStyle))
    (h : (g.fx.map Prod.fst).Nodup) :
    ((tweenElement g el toV ms ez od).fx.map Prod.fst).Nodup := by
  rw [(tween_proj g el toV ms ez od).2.1]
  exact aset_keys_nodup _ _ _ (fx_nodup_cancel g el h)

theorem fx_nodup_stepRun (g : Engine) (aid : Nat)
    (h : (g.fx.map Prod.fst).Nodup) :
    ((stepRun g aid).fx.map Prod.fst).Nodup := by
  cases ha : alookup g.anims aid with
  | none =>
    have he : stepRun g aid = g := by simp [stepRun, ha]
    rw [he]; exact h
  | some a =>
    cases hst : alookup g.heap a.sid with
    | none =>
      have he : stepRun g aid = g := by simp [stepRun, ha, hst]
      rw [he]; exact h
    | some st =>
      by_cases hs : st.stop = true
      · rw [stepRun_stopped g aid a st ha hst hs]; exact h
      · have hsf : st.stop = false := Bool.false_of_not_true hs
        by_cases hlt : progT (g.time - a.start) a.ms < 1
        · rw [(stepRun_cont g aid a st ha hst hsf hlt).2.2.2.2.1]
          exact h
        · cases hod : a.onDone with
          | none =>
            rw [(stepRun_done_none g aid a st ha hst hsf hlt hod).2.2.2.2.1]
            exact aerase_keys_nodup _ _ h
          | some f =>
            rw [(stepRun_done_some g aid a st f ha hst hsf hlt
              hod).2.2.2.2.1]
            exact aerase_keys_nodup _ _ h

theorem fx_nodup_applyAct (g : Engine) (act : Act)
    (h : (g.fx.map Prod.fst).Nodup) :
    ((applyAct g act).fx.map Prod.fst).Nodup := by
  cases act with
  | tick dt => exact h
  | fire hh =>
    simp only [applyAct, fireRaf]
    cases hp : alookup g.pending hh with
    | none => exact h
    | some aid => exact fx_nodup_stepRun _ aid h
  | actTo el toV ms ez =>
    cases el with
    | none => exact h
    | some e => exact fx_nodup_tween g e toV ms ez none h
  | actFade el ms sh ez =>
    cases el with
    | none => exact h
    | some e =>
      simp only [applyAct, fxFade]
      refine fx_nodup_tween _ e _ ms ez _ ?_
      split
      · exact h
      · exact h
  | actMove el x y ms ez =>
    cases el with
    | none => exact h
    | some e => exact fx_nodup_tween g e _ ms ez none h
  | actScale el sc ms ez =>
    cases el with
    | none => exact h
    | some e => exact fx_nodup_tween g e _ ms ez none h
  | actRotate el deg ms ez =>
    cases el with
    | none => exact h
    | some e => exact fx_nodup_tween g e _ ms ez none h
  | actStop el =>
    cases el with
    | none => exact h
    | some e => exact fx_nodup_cancel g e h

/-- C4: starting a new animation on a target that already has one first
terminates the old state — the old shared state's stop flag is set and its
scheduled frame callback is cancelled — before the new, distinct state is
installed; and the registry keeps at most one entry per target. -/
theorem tween_terminates_old_state (g : Engine) (el sid h : Nat)
    (st : FXState) (toV : List (String × ℚ)) (ms : ℚ) (ez : ℚ → ℚ)
    (od : Option (ElStyle → ElStyle)) (hwf : WF g)
    (hfx : alookup g.fx el = some sid) (hst : alookup g.heap sid = some st)
    (hraf : st.raf = some h) :
    alookup (tweenElement g el toV ms ez od).heap sid =
      some { st with stop := true } ∧
    alookup (tweenElement g el toV ms ez od).pending h = none ∧
    (∃ sid2, alookup (tweenElement g el toV ms ez od).fx el = some sid2 ∧
      sid2 ≠ sid) ∧
    ((g.fx.map Prod.fst).Nodup →
      ((tweenElement g el toV ms ez od).fx.map Prod.fst).Nodup) ∧
    (((mkEngine g.base []).fx.map Prod.fst).Nodup ∧
      ∀ (g2 : Engine) (act : Act), (g2.fx.map Prod.fst).Nodup →
        ((applyAct g2 act).fx.map Prod.fst).Nodup) := by
  obtain ⟨t1, t2, _, t4, t5, _, _, _, _⟩ := tween_proj g el toV ms ez od
  obtain ⟨c1, c2, c3, _, _, c6, _, _, _⟩ := cancel_present g el sid st hfx hst
  have hsid : sid < g.nextId := hwf.heapLt hst
  have hh : h < g.nextId := hwf.rafLt hst hraf
  refine ⟨?_, ?_, ?_, ?_, by simp [mkEngine], fun g2 act => fx_nodup_applyAct g2 act⟩
  · rw [t1]
    simp only [alookup, c6]
    rw [if_neg (by omega)]
    rw [c1]
    exact alookup_aset_self _ _ _
  · rw [t4]
    simp only [alookup, c6]
    rw [if_neg (by omega)]
    rw [c3, hraf]
    exact alookup_aerase_self _ _
  · refine ⟨(cancel g el).nextId, ?_, by rw [c6]; omega⟩
    rw [t2]
    exact alookup_aset_self _ _ _
  · intro hnd
    rw [t2, c2]
    simp only [aset, List.map_cons, List.nodup_cons]
    exact ⟨aerase_keys_not_mem _ _,
      aerase_keys_nodup _ _ (aerase_keys_nodup _ _ hnd)⟩

/-- Closed witness for `tween_terminates_old_state`: a `scale` request on
the target of the in-flight `move` of `gMv`. -/
theorem tween_terminates_old_state_witness :
    WF gMv ∧ alookup gMv.fx 0 = some 0 ∧
    alookup gMv.heap 0 = some sMv ∧ sMv.raf = some 2 ∧
    (alookup (tweenElement gMv 0 [("scale", 2)] 300 easeLinear none).heap 0 =
       some { sMv with stop := true } ∧
     alookup (tweenElement gMv 0 [("scale", 2)] 300 easeLinear none).pending 2
       = none ∧
     (∃ sid2,
       alookup (tweenElement gMv 0 [("scale", 2)] 300 easeLinear none).fx 0 =
         some sid2 ∧ sid2 ≠ 0) ∧
     ((gMv.fx.map Prod.fst).Nodup →
       ((tweenElement gMv 0 [("scale", 2)] 300 easeLinear
           none).fx.map Prod.fst).Nodup) ∧
     (((mkEngine gMv.base []).fx.map Prod.fst).Nodup ∧
       ∀ (g2 : Engine) (act : Act), (g2.fx.map Prod.fst).Nodup →
         ((applyAct g2 act).fx.map Prod.fst).Nodup)) :=
  ⟨rfl, rfl, rfl, rfl,
   tween_terminates_old_state gMv 0 0 2 sMv [("scale", 2)] 300 easeLinear
     none rfl rfl rfl rfl⟩

/-! ### C2 — the completing frame -/

/-- A custom easing with `easing(1) = 1/2 ≠ 1`, used to separate "write
the eased value" from "write the exact destination". -/
def halfEase (t : ℚ) : ℚ := t / 2

/-- Engine after `to({width: 10}, 300, halfEase)` on a fresh page, a
300-unit clock advance, and the resulting frame callback. -/
def gHalf : Engine :=
  runActs (mkEngine baseW [])
    [.actTo (some 0) [("width", 10)] 300 halfEase, .tick 300, .fire 2]

/-- C2 counterexample: on the first frame with `t ≥ 1` the engine writes
`from + (to - from) * easing(1) = 5`, not the requested destination 10,
for the custom easing `halfEase` — while the claim demands exactly 10 for
every easing. (The registry entry is still removed.) -/
theorem final_frame_not_exact_cex :
    gHalf.writes = [⟨1, 0, "width", 5⟩] ∧ alookup gHalf.fx 0 = none ∧
    halfEase 1 = 1/2 ∧ (5 : ℚ) ≠ 10 := by
  refine ⟨?_, ?_, by norm_num [halfEase], by norm_num⟩
  · simp [gHalf, runActs, applyAct, fxTo, tweenElement, cancel,
      stepRun, fireRaf, writeLoop, writeOne, writeStyle, readStyle,
      computedAt, styleOf, compFall, mkEngine, progT, halfEase, interpV,
      alookup, aset, aerase, min_def, defStyle, baseW]
    norm_num
  · simp [gHalf, runActs, applyAct, fxTo, tweenElement, cancel,
      stepRun, fireRaf, writeLoop, writeOne, writeStyle, readStyle,
      computedAt, styleOf, compFall, mkEngine, progT, halfEase, interpV,
      alookup, aset, aerase, min_def, defStyle, baseW]

/-- C2 amended: on the first frame with `t ≥ 1` the value written for each
channel `k` is the eased value `from[k] + (to[k] - from[k]) * easing(1)` —
which equals `to[k]` exactly when `easing(1) = 1`, as holds for all four
built-in easings, but not for a custom easing with `easing(1) ≠ 1`; the
state is removed from the registry and the completion callback (when
supplied) is invoked. -/
theorem final_frame_write (g : Engine) (aid : Nat) (a : Anim) (st : FXState)
    (ha : alookup g.anims aid = some a) (hst : alookup g.heap a.sid = some st)
    (hs : st.stop = false) (hge : max 1 a.ms ≤ g.time - a.start) :
    (stepRun g aid).writes = g.writes ++ st.toV.map (fun kv =>
      ⟨aid, a.el, kv.1, interpV st.fromV kv (a.easing 1)⟩) ∧
    alookup (stepRun g aid).fx a.el = none ∧
    (a.onDone = none → (stepRun g aid).doneFired = g.doneFired) ∧
    (∀ f, a.onDone = some f →
      (stepRun g aid).doneFired = g.doneFired ++ [aid]) ∧
    (∀ x y : ℚ, x + (y - x) * 1 = y) ∧
    easeLinear 1 = 1 ∧ easeIn 1 = 1 ∧ easeOut 1 = 1 ∧ easeInOut 1 = 1 := by
  have h1 : progT (g.time - a.start) a.ms = 1 := progT_eq_one hge
  have hnlt : ¬ progT (g.time - a.start) a.ms < 1 := by
    rw [h1]; exact lt_irrefl 1
  have herase : alookup (aerase g.fx a.el) a.el = none :=
    alookup_aerase_self _ _
  cases hod : a.onDone with
  | none =>
    obtain ⟨_, _, _, _, h5, h6, h7, _, _⟩ :=
      stepRun_done_none g aid a st ha hst hs hnlt hod
    refine ⟨by rw [h7, h1], by rw [h5]; exact herase, fun _ => h6, ?_,
      fun x y => by ring, by norm_num [easeLinear], by norm_num [easeIn],
      by norm_num [easeOut], by norm_num [easeInOut]⟩
    intro f hf
    exact Option.noConfusion hf
  | some f =>
    obtain ⟨_, _, _, _, h5, h6, h7, _, _⟩ :=
      stepRun_done_some g aid a st f ha hst hs hnlt hod
    refine ⟨by rw [h7, h1], by rw [h5]; exact herase, ?_, fun f2 hf2 => h6,
      fun x y => by ring, by norm_num [easeLinear], by norm_num [easeIn],
      by norm_num [easeOut], by norm_num [easeInOut]⟩
    intro hf
    exact Option.noConfusion hf

/-- Closed witness for `final_frame_write`: the completing frame of the
`move` of `gMvT`. -/
theorem final_frame_write_witness :
    alookup gMvT.anims 1 = some aMv ∧
    alookup gMvT.heap aMv.sid = some sMv ∧ sMv.stop = false ∧
    max 1 aMv.ms ≤ gMvT.time - aMv.start ∧
    ((stepRun gMvT 1).writes = gMvT.writes ++ sMv.toV.map (fun kv =>
        ⟨1, aMv.el, kv.1, interpV sMv.fromV kv (aMv.easing 1)⟩) ∧
      alookup (stepRun gMvT 1).fx aMv.el = none ∧
      (aMv.onDone = none → (stepRun gMvT 1).doneFired = gMvT.doneFired) ∧
      (∀ f, aMv.onDone = some f →
        (stepRun gMvT 1).doneFired = gMvT.doneFired ++ [1]) ∧
      (∀ x y : ℚ, x + (y - x) * 1 = y) ∧
      easeLinear 1 = 1 ∧ easeIn 1 = 1 ∧ easeOut 1 = 1 ∧ easeInOut 1 = 1) := by
  have hge : max 1 aMv.ms ≤ gMvT.time - aMv.start := by
    show max 1 (300 : ℚ) ≤ gMvT.time - 0
    have ht : gMvT.time = 0 + 300 := rfl
    rw [ht]
    norm_num [max_def]
  exact ⟨rfl, rfl, rfl, hge,
    final_frame_write gMvT 1 aMv sMv rfl rfl rfl hge⟩

/-! ### C10 — co-animated transform channels compose from `to` -/

/-- C10: when one animation animates several transform channels (here
`move`'s `x` and `y`), each per-frame `write` fills the other transform
components from the animation's destination (`to`) values, not the values
interpolated in the same frame; hence after the frame's writes (in channel
key order `x` then `y`) the composed transform carries the destination
`bx` for `x` — the non-last co-animated channel — and the interpolated
value only for `y`. -/
theorem transform_cowrite_uses_destinations
    (g : Engine) (aid : Nat) (a : Anim) (st : FXState)
    (bx b2 ax ay v : ℚ) (es : ElStyle)
    (ha : alookup g.anims aid = some a)
    (hst : alookup g.heap a.sid = some st)
    (hs : st.stop = false)
    (hfx : alookup g.fx a.el = some a.sid)
    (hto : st.toV = [("x", bx), ("y", b2)])
    (hfrom : st.fromV = [("x", ax), ("y", ay)])
    (hod : a.onDone = none) :
    writeStyle (some st) es "x" v =
      { es with transform := some ⟨v, b2, 1, 0⟩ } ∧
    writeStyle (some st) es "y" v =
      { es with transform := some ⟨bx, v, 1, 0⟩ } ∧
    (styleOf (stepRun g aid) a.el).transform =
      some ⟨bx, ay + (b2 - ay) * a.easing (progT (g.time - a.start) a.ms),
        1, 0⟩ := by
  have key : ∀ e : ℚ,
      (styleOf (writeLoop g aid a.el st.fromV st.toV e) a.el).transform =
        some ⟨bx, ay + (b2 - ay) * e, 1, 0⟩ := by
    intro e
    rw [hto, hfrom]
    simp [writeLoop, writeOne, styleOf, hfx, hst, hto, hfrom, aset, alookup,
      writeStyle, compFall, interpV, aerase]
  refine ⟨?_, ?_, ?_⟩
  · simp [writeStyle, compFall, hto, hfrom, alookup]
  · simp [writeStyle, compFall, hto, hfrom, alookup]
  · by_cases hlt : progT (g.time - a.start) a.ms < 1
    · have hc := stepRun_cont g aid a st ha hst hs hlt
      have hsty := hc.2.2.2.2.2.2.2.1
      rw [styleOf, hsty]
      exact key _
    · have hc := stepRun_done_none g aid a st ha hst hs hlt hod
      have hsty := hc.2.2.2.2.2.2.2.1
      rw [styleOf, hsty]
      exact key _

/-- Closed witness for `transform_cowrite_uses_destinations`: a frame of
the in-flight `move(10, 0, 300)` of `gMv`. -/
theorem transform_cowrite_uses_destinations_witness :
    alookup gMv.anims 1 = some aMv ∧
    alookup gMv.heap aMv.sid = some sMv ∧ sMv.stop = false ∧
    alookup gMv.fx aMv.el = some aMv.sid ∧
    sMv.toV = [("x", 10), ("y", 0)] ∧ sMv.fromV = [("x", 0), ("y", 0)] ∧
    aMv.onDone = none ∧
    (writeStyle (some sMv) defStyle "x" 4 =
      { defStyle with transform := some ⟨4, 0, 1, 0⟩ } ∧
     writeStyle (some sMv) defStyle "y" 4 =
      { defStyle with transform := some ⟨10, 4, 1, 0⟩ } ∧
     (styleOf (stepRun gMv 1) aMv.el).transform =
       some ⟨10, 0 + (0 - 0) * aMv.easing (progT (gMv.time - aMv.start)
         aMv.ms), 1, 0⟩) :=
  ⟨rfl, rfl, rfl, rfl, rfl, rfl, rfl,
   transform_cowrite_uses_destinations gMv 1 aMv sMv 10 0 0 0 4 defStyle
     rfl rfl rfl rfl rfl rfl rfl⟩

/-! ### C1 — transform composition across animations -/

/-- Engine after `move(10, 0, 300)` runs to natural completion (clock
advance 300, completing frame), followed by `scale(2, 300)` on the same
target, a 150-unit clock advance and the scale animation's first frame. -/
def gC1cex : Engine :=
  runActs (mkEngine baseW [])
    [.actMove (some 0) 10 0 300 easeLinear, .tick 300, .fire 2,
     .actScale (some 0) 2 300 easeLinear, .tick 150, .fire 5]

/-- C1 counterexample: after `move(10, 0, 300)` completed naturally with a
final transform translate of 10, the first frame of the following
`scale(2, 300)` writes the composed transform `⟨0, 0, 3/2, 0⟩` — its
x-translate is 0, not the 10 the claim requires. -/
theorem transform_translate_not_preserved_cex :
    (styleOf gC1cex 0).transform = some ⟨0, 0, 3/2, 0⟩ ∧ (0 : ℚ) ≠ 10 := by
  constructor
  · simp [gC1cex, runActs, applyAct, fxMove, fxScale, tweenElement, cancel,
      stepRun, fireRaf, writeLoop, writeOne, writeStyle, readStyle,
      computedAt, styleOf, compFall, mkEngine, progT, easeLinear, interpV,
      alookup, aset, aerase, min_def, defStyle, baseW]
    norm_num
    simp [alookup]
  · norm_num

/-- C1 amended: a per-frame transform write of an animation whose current
`to`/`from` maps do not contain the `x` channel (as holds for any fresh
transform animation started after the previous animation completed and its
registry entry was deleted) writes x = 0, the identity default — the
composer consults only the current state's `to` and `from` maps, so the
previous animation's final translate value is not preserved. -/
theorem transform_reset_after_completion
    (g : Engine) (aid : Nat) (a : Anim) (st : FXState)
    (b aq v : ℚ) (es : ElStyle)
    (ha : alookup g.anims aid = some a)
    (hst : alookup g.heap a.sid = some st)
    (hs : st.stop = false)
    (hfx : alookup g.fx a.el = some a.sid)
    (hto : st.toV = [("scale", b)])
    (hfrom : st.fromV = [("scale", aq)])
    (hod : a.onDone = none) :
    writeStyle (some st) es "scale" v =
      { es with transform := some ⟨0, 0, v, 0⟩ } ∧
    (styleOf (stepRun g aid) a.el).transform =
      some ⟨0, 0, aq + (b - aq) * a.easing (progT (g.time - a.start) a.ms),
        0⟩ := by
  have key : ∀ e : ℚ,
      (styleOf (writeLoop g aid a.el st.fromV st.toV e) a.el).transform =
        some ⟨0, 0, aq + (b - aq) * e, 0⟩ := by
    intro e
    rw [hto, hfrom]
    simp [writeLoop, writeOne, styleOf, hfx, hst, hto, hfrom, aset, alookup,
      writeStyle, compFall, interpV, aerase]
  refine ⟨?_, ?_⟩
  · simp [writeStyle, compFall, hto, hfrom, alookup]
  · by_cases hlt : progT (g.time - a.start) a.ms < 1
    · have hc := stepRun_cont g aid a st ha hst hs hlt
      have hsty := hc.2.2.2.2.2.2.2.1
      rw [styleOf, hsty]
      exact key _
    · have hc := stepRun_done_none g aid a st ha hst hs hlt hod
      have hsty := hc.2.2.2.2.2.2.2.1
      rw [styleOf, hsty]
      exact key _

/-- Engine with one fresh `scale(2, 300)` animation (a transform animation
whose `to`/`from` maps hold only the `scale` channel). -/
def gScl : Engine := fxScale (mkEngine baseW []) (some 0) 2 300 easeLinear

/-- The animation closure installed by the `scale` of `gScl`. -/
def aScl : Anim := ⟨0, 0, 300, easeLinear, none, 0⟩

/-- The shared animation state installed by the `scale` of `gScl`. -/
def sScl : FXState := ⟨some 2, 0, false, [("scale", 1)], [("scale", 2)]⟩

/-- Closed witness for `transform_reset_after_completion` on `gScl`. -/
theorem transform_reset_after_completion_witness :
    alookup gScl.anims 1 = some aScl ∧
    alookup gScl.heap aScl.sid = some sScl ∧ sScl.stop = false ∧
    alookup gScl.fx aScl.el = some aScl.sid ∧
    sScl.toV = [("scale", 2)] ∧ sScl.fromV = [("scale", 1)] ∧
    aScl.onDone = none ∧
    (writeStyle (some sScl) defStyle "scale" 4 =
      { defStyle with transform := some ⟨0, 0, 4, 0⟩ } ∧
     (styleOf (stepRun gScl 1) aScl.el).transform =
       some ⟨0, 0, 1 + (2 - 1) * aScl.easing (progT (gScl.time - aScl.start)
         aScl.ms), 0⟩) :=
  ⟨rfl, rfl, rfl, rfl, rfl, rfl, rfl,
   transform_reset_after_completion gScl 1 aScl sScl 2 1 4 defStyle
     rfl rfl rfl rfl rfl rfl rfl⟩

/-! ### C3 — a superseded animation never writes and never completes -/

/-- C3: if a target has an in-flight animation (closure `aid` whose shared
state `st` is registered for `el`), then after `cancel el` (explicit stop)
or after starting any second animation on `el`, and after any further
sequence of environment events whatsoever, the superseded animation `aid`
has produced no further write and its completion callback has not fired:
its write trace and completion trace stay exactly what they were at the
moment of cancellation. -/
theorem superseded_never_acts (g : Engine) (el aid sid : Nat) (a : Anim)
    (st : FXState) (hwf : WF g) (hfx : alookup g.fx el = some sid)
    (ha : alookup g.anims aid = some a) (hsid : a.sid = sid)
    (hst : alookup g.heap sid = some st)
    (acts : List Act) (toV : List (String × ℚ)) (ms : ℚ) (ez : ℚ → ℚ)
    (od : Option (ElStyle → ElStyle)) :
    (writesOf (runActs (cancel g el) acts) aid = writesOf g aid ∧
     firedOf (runActs (cancel g el) acts) aid = firedOf g aid) ∧
    (writesOf (runActs (tweenElement g el toV ms ez od) acts) aid =
       writesOf g aid ∧
     firedOf (runActs (tweenElement g el toV ms ez od) acts) aid =
       firedOf g aid) := by
  obtain ⟨c1, _, _, _, c5, _, _, _, _⟩ := cancel_present g el sid st hfx hst
  have hc : Prot g (cancel g el) aid := by
    refine ⟨WF_cancel hwf el, ?_, ?_, ?_⟩
    · refine ⟨a, { st with stop := true }, ?_, ?_, rfl⟩
      · rw [c5]; exact ha
      · rw [hsid, c1]; exact alookup_aset_self _ _ _
    · simp only [writesOf, (cancel_frozen g el).2.2.2.2.1]
    · simp only [firedOf, (cancel_frozen g el).2.2.2.2.2]
  have h1 := prot_runActs hc acts
  have h2 := prot_runActs (prot_tween_of_cancel hwf hc toV ms ez od) acts
  exact ⟨⟨h1.2.2.1, h1.2.2.2⟩, ⟨h2.2.2.1, h2.2.2.2⟩⟩

/-- Closed witness for `superseded_never_acts`: the in-flight `move` of
`gMv` is superseded; afterwards the clock advances and the (cancelled)
frame handle is fired — the move animation (id 1) never writes and never
completes. -/
theorem superseded_never_acts_witness :
    WF gMv ∧ alookup gMv.fx 0 = some 0 ∧
    alookup gMv.anims 1 = some aMv ∧ aMv.sid = 0 ∧
    alookup gMv.heap 0 = some sMv ∧
    ((writesOf (runActs (cancel gMv 0) [.tick 300, .fire 2]) 1 =
        writesOf gMv 1 ∧
      firedOf (runActs (cancel gMv 0) [.tick 300, .fire 2]) 1 =
        firedOf gMv 1) ∧
     (writesOf (runActs (tweenElement gMv 0 [("scale", 2)] 300 easeLinear
          none) [.tick 300, .fire 2]) 1 = writesOf gMv 1 ∧
      firedOf (runActs (tweenElement gMv 0 [("scale", 2)] 300 easeLinear
          none) [.tick 300, .fire 2]) 1 = firedOf gMv 1)) :=
  ⟨rfl, rfl, rfl, rfl, rfl,
   superseded_never_acts gMv 0 1 0 aMv sMv rfl rfl rfl rfl rfl
     [.tick 300, .fire 2] [("scale", 2)] 300 easeLinear none⟩

/-! ### C5 — fade semantics -/

/-- After `tweenElement`, the registry entry of the target resolves (via
the heap) to the freshly installed state, whose `to` map is exactly the
requested channel set. -/
theorem tween_installed (g : Engine) (el : Nat) (toV : List (String × ℚ))
    (ms : ℚ) (ez : ℚ → ℚ) (od : Option (ElStyle → ElStyle)) :
    (alookup (tweenElement g el toV ms ez od).fx el).bind
      (alookup (tweenElement g el toV ms ez od).heap) =
      some ⟨some ((cancel g el).nextId + 2), (cancel g el).time, false,
        toV.map (fun kv =>
          (kv.1, readStyle (computedAt (cancel g el) el) kv.1)), toV⟩ := by
  obtain ⟨h1, h2, _, _, _, _, _, _, _⟩ := tween_proj g el toV ms ez od
  rw [h2, alookup_aset_self]
  show alookup _ ((cancel g el).nextId) = _
  rw [h1]
  simp [alookup]

/-- A channel write never changes the layout visibility of the element. -/
theorem writeStyle_display (st : Option FXState) (es : ElStyle) (k : String)
    (v : ℚ) : (writeStyle st es k v).display = es.display := by
  unfold writeStyle
  split
  · rfl
  · split
    · rfl
    · rfl

theorem writeOne_display (g : Engine) (aid el : Nat) (k : String) (v : ℚ)
    (el2 : Nat) :
    (styleOf (writeOne g aid el k v) el2).display =
      (styleOf g el2).display := by
  unfold writeOne styleOf
  by_cases h : el2 = el
  · subst h
    simp only [alookup_aset_self, Option.getD_some]
    exact writeStyle_display _ _ _ _
  · rw [alookup_aset_ne _ _ _ _ h]

theorem writeLoop_display (toV : List (String × ℚ)) (g : Engine)
    (aid el : Nat) (fromV : List (String × ℚ)) (e : ℚ) (el2 : Nat) :
    (styleOf (writeLoop g aid el fromV toV e) el2).display =
      (styleOf g el2).display := by
  induction toV generalizing g with
  | nil => rfl
  | cons kv t ih =>
    simp only [writeLoop, List.foldl] at ih ⊢
    rw [ih (writeOne g aid el kv.1 (interpV fromV kv e))]
    exact writeOne_display g aid el kv.1 (interpV fromV kv e) el2

/-- C5: `fade` semantics. (1) With `show` unspecified, the direction is
decided by the current computed opacity (below 1/2 fades in, otherwise
out) and the installed destination is exactly opacity 1 or 0 accordingly;
(2) with `show` given, the destination is exactly 1 or 0; (3) a fade-out
leaves layout visibility untouched at start and performs no write before
its first frame; (4) a fade-in on a layout-hidden element restores layout
visibility immediately, before any opacity write; (5) a non-final frame
of any animation never changes any element's layout visibility; (6) on the
completing frame of a fade-out, the final opacity write happens and only
then the completion callback hides the element from layout — the
resulting style shows both the final written opacity and `display:none`. -/
theorem fade_spec (g : Engine) (el : Nat) (ms : ℚ) (ez : ℚ → ℚ) (q : ℚ) :
    (computedAt g el "opacity" = .numv q →
      ∃ st2, (alookup (fxFade g (some el) ms none ez).fx el).bind
          (alookup (fxFade g (some el) ms none ez).heap) = some st2 ∧
        st2.toV = [("opacity", if q < 1/2 then (1 : ℚ) else 0)]) ∧
    (∀ b : Bool, ∃ st2,
      (alookup (fxFade g (some el) ms (some b) ez).fx el).bind
          (alookup (fxFade g (some el) ms (some b) ez).heap) = some st2 ∧
        st2.toV = [("opacity", if b then (1 : ℚ) else 0)]) ∧
    ((styleOf (fxFade g (some el) ms (some false) ez) el).display =
        (styleOf g el).display ∧
      (fxFade g (some el) ms (some false) ez).writes = g.writes) ∧
    ((styleOf g el).display = "none" →
      (styleOf (fxFade g (some el) ms (some true) ez) el).display = "" ∧
      (fxFade g (some el) ms (some true) ez).writes = g.writes) ∧
    (∀ (g2 : Engine) (aid : Nat) (a : Anim) (st : FXState),
      alookup g2.anims aid = some a → alookup g2.heap a.sid = some st →
      st.stop = false → progT (g2.time - a.start) a.ms < 1 →
      ∀ el2, (styleOf (stepRun g2 aid) el2).display =
        (styleOf g2 el2).display) ∧
    (∀ (g2 : Engine) (aid : Nat) (a : Anim) (st : FXState) (q0 : ℚ),
      alookup g2.anims aid = some a → alookup g2.heap a.sid = some st →
      st.stop = false → a.onDone = some (fadeDone false) →
      max 1 a.ms ≤ g2.time - a.start →
      st.toV = [("opacity", 0)] → st.fromV = [("opacity", q0)] →
      (styleOf (stepRun g2 aid) a.el).display = "none" ∧
      (styleOf (stepRun g2 aid) a.el).opacity =
        some (q0 + (0 - q0) * a.easing 1) ∧
      (stepRun g2 aid).writes =
        g2.writes ++ [⟨aid, a.el, "opacity", q0 + (0 - q0) * a.easing 1⟩]) := by
  refine ⟨?_, ?_, ?_, ?_, ?_, ?_⟩
  · intro hq
    simp only [fxFade, hq, fadeToggle]
    by_cases hq2 : q < 1/2
    · rw [if_pos hq2, if_pos hq2]
      exact ⟨_, tween_installed _ el _ ms ez _, rfl⟩
    · rw [if_neg hq2, if_neg hq2]
      exact ⟨_, tween_installed _ el _ ms ez _, rfl⟩
  · intro b
    simp only [fxFade]
    exact ⟨_, tween_installed _ el _ ms ez _, rfl⟩
  · constructor
    · simp only [fxFade, Bool.false_and, Bool.false_eq_true, if_false]
      rw [styleOf, (tween_proj _ el _ ms ez _).2.2.2.2.2.1,
        (cancel_frozen _ el).1]
      simp [styleOf, alookup_aset_self]
    · simp only [fxFade, Bool.false_and, Bool.false_eq_true, if_false]
      rw [(tween_proj _ el _ ms ez _).2.2.2.2.2.2.2.1,
        (cancel_frozen _ el).2.2.2.2.1]
  · intro hd
    constructor
    · simp only [fxFade]
      rw [styleOf, (tween_proj _ el _ ms ez _).2.2.2.2.2.1,
        (cancel_frozen _ el).1]
      have hcond : (true && ((styleOf { g with
          styles := aset g.styles el
            { styleOf g el with willChange := "opacity" } } el).display ==
          "none")) = true := by
        simp only [styleOf, alookup_aset_self, Option.getD_some,
          Bool.true_and, beq_iff_eq]
        exact hd
      rw [if_pos hcond]
      simp [styleOf, alookup_aset_self]
    · simp only [fxFade]
      rw [(tween_proj _ el _ ms ez _).2.2.2.2.2.2.2.1,
        (cancel_frozen _ el).2.2.2.2.1]
      split
      · rfl
      · rfl
  · intro g2 aid a st ha hst hs hlt el2
    have hc := stepRun_cont g2 aid a st ha hst hs hlt
    rw [styleOf, hc.2.2.2.2.2.2.2.1]
    exact writeLoop_display st.toV g2 aid a.el st.fromV _ el2
  · intro g2 aid a st q0 ha hst hs hod hge hto hfrom
    have h1 : progT (g2.time - a.start) a.ms = 1 := progT_eq_one hge
    have hnlt : ¬ progT (g2.time - a.start) a.ms < 1 := by
      rw [h1]; exact lt_irrefl 1
    have hc := stepRun_done_some g2 aid a st (fadeDone false) ha hst hs hnlt hod
    have hsty := hc.2.2.2.2.2.2.2.1
    have hwr := hc.2.2.2.2.2.2.1
    rw [hto, hfrom] at hsty hwr
    constructor
    · rw [styleOf, hsty]
      simp [writeLoop, writeOne, aset, alookup, styleOf, writeStyle,
        fadeDone, interpV]
    constructor
    · rw [styleOf, hsty]
      simp [writeLoop, writeOne, aset, alookup, styleOf, writeStyle,
        fadeDone, interpV, h1]
    · rw [hwr]
      simp [interpV, alookup, h1]

/-- Engine with one layout-hidden element (display none), stylesheet
opacity 1/2. -/
def gH : Engine := mkEngine baseV [(0, { defStyle with display := "none" })]

/-- Engine after `fade(300, false)` (fade towards hidden) on `gH`. -/
def gFad : Engine := fxFade gH (some 0) 300 (some false) easeLinear

/-- The animation closure installed by the fade of `gFad`. -/
def aFad : Anim := ⟨0, 0, 300, easeLinear, some (fadeDone false), 0⟩

/-- The shared animation state installed by the fade of `gFad`. -/
def sFad : FXState := ⟨some 2, 0, false, [("opacity", 1/2)], [("opacity", 0)]⟩

/-- `gFad` after the clock advanced past the fade duration. -/
def gFadT : Engine := applyAct gFad (.tick 300)

/-- Closed witness for `fade_spec` on the hidden element of `gH` and the
fade-out animation of `gFad` / `gFadT`. -/
theorem fade_spec_witness :
    computedAt gH 0 "opacity" = .numv (1/2) ∧
    (styleOf gH 0).display = "none" ∧
    alookup gFad.anims 1 = some aFad ∧
    alookup gFad.heap aFad.sid = some sFad ∧ sFad.stop = false ∧
    progT (gFad.time - aFad.start) aFad.ms < 1 ∧
    aFad.onDone = some (fadeDone false) ∧
    max 1 aFad.ms ≤ gFadT.time - aFad.start ∧
    sFad.toV = [("opacity", 0)] ∧ sFad.fromV = [("opacity", 1/2)] ∧
    (∃ st2, (alookup (fxFade gH (some 0) 300 none easeLinear).fx 0).bind
        (alookup (fxFade gH (some 0) 300 none easeLinear).heap) = some st2 ∧
      st2.toV = [("opacity", if (1 : ℚ)/2 < 1/2 then (1 : ℚ) else 0)]) ∧
    ((styleOf (fxFade gH (some 0) 300 (some true) easeLinear) 0).display =
        "" ∧
      (fxFade gH (some 0) 300 (some true) easeLinear).writes = gH.writes) ∧
    (∀ el2, (styleOf (stepRun gFad 1) el2).display =
      (styleOf gFad el2).display) ∧
    ((styleOf (stepRun gFadT 1) aFad.el).display = "none" ∧
      (styleOf (stepRun gFadT 1) aFad.el).opacity =
        some (1/2 + (0 - 1/2) * aFad.easing 1) ∧
      (stepRun gFadT 1).writes =
        gFadT.writes ++ [⟨1, aFad.el, "opacity",
          1/2 + (0 - 1/2) * aFad.easing 1⟩]) := by
  have hlt : progT (gFad.time - aFad.start) aFad.ms < 1 := by
    show progT ((0 : ℚ) - 0) 300 < 1
    norm_num [progT, min_def, max_def]
  have hge : max 1 aFad.ms ≤ gFadT.time - aFad.start := by
    show max 1 (300 : ℚ) ≤ 0 + 300 - 0
    norm_num [max_def]
  have W := fade_spec gH 0 300 easeLinear (1/2)
  exact ⟨rfl, rfl, rfl, rfl, rfl, hlt, rfl, hge, rfl, rfl,
    W.1 rfl, W.2.2.2.1 rfl,
    W.2.2.2.2.1 gFad 1 aFad sFad rfl rfl rfl hlt,
    W.2.2.2.2.2 gFadT 1 aFad sFad (1/2) rfl rfl rfl rfl hge rfl rfl⟩

end Fx
